import Mathlib

/-!
Shallow embedding of the todust append-only metadata index and blob store
(`src/entry.rs`, `src/store/index.rs`, `src/store/mod.rs`).

Timestamps (`DateTime<Utc>`, `NaiveDate`) are modelled as `Nat`, UUIDs as
`Nat`; both carry only their total order and equality here, which is all the
store logic uses. Rust `BTreeSet`s are modelled as sorted duplicate-free
lists (their iteration order), `BTreeMap`s as association lists where insert
overwrites the existing binding.
-/

set_option linter.unusedSectionVars false

namespace Todust

/-- Rust `Metadata` (src/entry.rs:38-46), field order as declared: the derived
`Ord` compares the fields lexicographically in exactly this order. -/
structure Metadata where
  last_change : Nat
  due : Option Nat
  started : Nat
  project : String
  finished : Option Nat
  uuid : Nat
deriving DecidableEq, Repr

/-- Rust `Option<T>` ordering (`None < Some _`) embedded order-isomorphically
into `Nat`: `none ↦ 0`, `some k ↦ k + 1`. -/
def optKey : Option Nat → Nat
  | none => 0
  | some k => k + 1

/-- Sort key realising the derived lexicographic `Ord` on `Metadata`:
compare `last_change`, then `due`, `started`, `project`, `finished`, `uuid`. -/
def Metadata.key (m : Metadata) :
    Lex (Nat × Lex (Nat × Lex (Nat × Lex (String × Lex (Nat × Nat))))) :=
  toLex (m.last_change, toLex (optKey m.due, toLex (m.started,
    toLex (m.project, toLex (optKey m.finished, m.uuid)))))

/-- The derived total order on `Metadata`, via the lexicographic key. -/
instance : LinearOrder Metadata :=
  LinearOrder.lift' Metadata.key (by
    have hopt : Function.Injective optKey := by
      intro a b h
      cases a <;> cases b <;> simp [optKey] at h <;> simp [h]
    rintro ⟨a1, a2, a3, a4, a5, a6⟩ ⟨b1, b2, b3, b4, b5, b6⟩ h
    simp only [Metadata.key, toLex_inj, Prod.mk.injEq] at h
    obtain ⟨h1, h2, h3, h4, h5, h6⟩ := h
    simp_all [hopt h2, hopt h5])

/-- Rust `Entry` (src/entry.rs:67-71): metadata plus the free-form body text.
The derived `Ord` compares `metadata`, then `text`. -/
structure Entry where
  metadata : Metadata
  text : String
deriving DecidableEq, Repr

/-- Sort key realising the derived lexicographic `Ord` on `Entry`. -/
def Entry.key (e : Entry) : Lex (Metadata × String) := toLex (e.metadata, e.text)

/-- The derived total order on `Entry`, via the lexicographic key. -/
instance : LinearOrder Entry :=
  LinearOrder.lift' Entry.key (by
    rintro ⟨m, t⟩ ⟨m', t'⟩ h
    simp only [Entry.key, toLex_inj, Prod.mk.injEq] at h
    simp [h.1, h.2])

section SetMapDefs

variable {α : Type} [LinearOrder α] [DecidableEq α] {κ : Type} [DecidableEq κ]

/-- Collecting an iterator into a Rust `BTreeSet`: the elements, deduplicated,
listed in ascending order (BTreeSet iteration order). -/
def toSetG (l : List α) : List α := (l.dedup).insertionSort (· ≤ ·)

/-- `BTreeMap::insert` on an association list: replace the binding for `k` if
present, otherwise add it. -/
def alInsert (k : κ) (v : α) : List (κ × α) → List (κ × α)
  | [] => [(k, v)]
  | (k', v') :: rest =>
    if k = k' then (k, v) :: rest else (k', v') :: alInsert k v rest

/-- `BTreeMap` lookup on the association list. -/
def alLookup (k : κ) : List (κ × α) → Option α
  | [] => none
  | (k', v) :: rest => if k = k' then some v else alLookup k rest

variable (key : α → Nat)

/-- One step of collecting `(key x, x)` pairs into a `BTreeMap`. -/
def lwwStep (m : List (Nat × α)) (x : α) : List (Nat × α) := alInsert (key x) x m

/-- `iter.map(|x| (key x, x)).collect::<BTreeMap<_, _>>()`: fold the list into
a map, later bindings overwriting earlier ones. -/
def lwwFold (l : List α) : List (Nat × α) := l.foldl (lwwStep key) []

/-- Last element of `l` whose key is `k` (later elements shadow earlier ones,
like repeated `BTreeMap::insert`). -/
def lastKey (k : Nat) : List α → Option α
  | [] => none
  | x :: l =>
    match lastKey k l with
    | some v => some v
    | none => if key x = k then some x else none

/-- Well-formedness of the association lists produced by `lwwFold`. -/
def WFal (m : List (Nat × α)) : Prop :=
  (∀ p ∈ m, key p.2 = p.1) ∧ (m.map Prod.fst).Nodup

/-- `metadata_most_recent` / `latest_entries` pattern: collect into a
`BTreeSet`, fold into a `BTreeMap` keyed by `key`, take the values, collect
into a `BTreeSet` again. -/
def latestG (l : List α) : List α := toSetG ((lwwFold key (toSetG l)).map Prod.snd)

end SetMapDefs

/-- `Metadata::is_active` (src/entry.rs:62-64): `finished.is_none()`. -/
def Metadata.is_active (m : Metadata) : Bool := m.finished.isNone

/-- `Entry::is_active` (src/entry.rs:83-85). -/
def Entry.is_active (e : Entry) : Bool := e.metadata.is_active

/-- Modelled from the spec: `Entry::is_done` is called by
`Store::get_done_entries` (src/store/mod.rs:303) but its definition is not in
the given sources; the spec says `get_done_entries` keeps the entries whose
`finished` is `Some`. -/
def Entry.is_done (e : Entry) : Bool := e.metadata.finished.isSome

/-- Entry uuid accessor, `entry.metadata.uuid`. -/
def Entry.uuid (e : Entry) : Nat := e.metadata.uuid

/-- On-disk state of one store: the metadata rows held in the per-writer shard
files (in append order, all writers pooled — every read unions all shards),
the rows of the compacted `index.csv`, and the blob files
`entries/{prefix}/{uuid}.adoc`, keyed by uuid with their text content. -/
structure StoreState where
  shards : List Metadata
  compacted : List Metadata
  blobs : List (Nat × String)
deriving DecidableEq, Repr

/-- The rows read by `Index::metadata` (src/store/index.rs:132-161) before
collecting: every shard file matched by the glob plus the compacted file. -/
def StoreState.allRecords (s : StoreState) : List Metadata := s.shards ++ s.compacted

/-- `Index::metadata` (src/store/index.rs:132-161): all rows of all shard
files plus the compacted file, collected into a `BTreeSet`. -/
def Index.metadata (s : StoreState) : List Metadata := toSetG s.allRecords

/-- `Index::metadata_most_recent` (src/store/index.rs:69-80): map `metadata()`
rows to `(uuid, row)` pairs collected into a `BTreeMap` (ascending iteration,
later inserts overwriting, so the greatest row of each uuid group survives)
and collect the values into a `BTreeSet`. -/
def Index.metadata_most_recent (s : StoreState) : List Metadata :=
  toSetG ((lwwFold Metadata.uuid (Index.metadata s)).map Prod.snd)

/-- `Index::metadata_add` (src/store/index.rs:39-65): append the row to the
local writer's per-day shard file. Which shard file receives the row cannot be
observed by any read (reads union all shards), so the model appends to the
shard row pool. -/
def Index.metadata_add (s : StoreState) (m : Metadata) : StoreState :=
  { s with shards := s.shards ++ [m] }

/-- `Index::compact` (src/store/index.rs:84-113): write
`metadata_most_recent()` to the compacted `index.csv` and delete the whole
per-writer shard tree. -/
def Index.compact (s : StoreState) : StoreState :=
  { s with compacted := Index.metadata_most_recent s, shards := [] }

/-- Rust `Vec::dedup`: remove adjacent duplicates. -/
def dedupAdj : List String → List String
  | [] => []
  | [a] => [a]
  | a :: b :: rest =>
    if a = b then dedupAdj (b :: rest) else a :: dedupAdj (b :: rest)

/-- `Index::projects` (src/store/index.rs:116-127): the `project` field of
every row of `metadata()` — all raw records, not `metadata_most_recent()` —
sorted, with adjacent duplicates removed. -/
def Index.projects (s : StoreState) : List String :=
  dedupAdj (((Index.metadata s).map Metadata.project).insertionSort (· ≤ ·))

/-- Errors surfaced by the store operations modelled here. -/
inductive StoreError
  /-- `format_err!("entry not found")` / `bail!("no active entry found with id {}", id)` -/
  | notFound
  /-- `fs::read_to_string` failing because a blob referenced by the index is absent -/
  | blobMissing (uuid : Nat)
  /-- `bail!("not finishing task then")` after the confirmation callback declined -/
  | declined
  /-- models a Rust panic: the `id - 1` underflow on `usize`, or `.unwrap()` of `None` -/
  | panicked
deriving DecidableEq, Repr

/-- `Store::write_entry_text` (src/store/mod.rs:144-155): create or overwrite
the blob file named by the entry's uuid with the entry's text. -/
def Store.write_entry_text (s : StoreState) (e : Entry) : StoreState :=
  { s with blobs := alInsert e.metadata.uuid e.text s.blobs }

/-- `Store::get_entry_for_metadata` (src/store/mod.rs:157-162): hydrate a
metadata row with its blob text. -/
def Store.get_entry_for_metadata (s : StoreState) (m : Metadata) :
    Except StoreError Entry :=
  match alLookup m.uuid s.blobs with
  | some text => .ok { metadata := m, text := text }
  | none => .error (.blobMissing m.uuid)

/-- `Store::add_entry` (src/store/mod.rs:194-206): write the blob, then append
the metadata row (the optional VCS commit hook is external to the state). -/
def Store.add_entry (s : StoreState) (e : Entry) : StoreState :=
  Index.metadata_add (Store.write_entry_text s e) e.metadata

/-- `Store::get_entries` (src/store/mod.rs:311-332): `metadata_most_recent()`
filtered by project, hydrated with blobs into a `BTreeSet`, then deduplicated
by uuid once more by `Entries::latest_entries` (src/entry.rs:150-164). -/
def Store.get_entries (s : StoreState) (project : String) :
    Except StoreError (List Entry) := do
  let filtered := (Index.metadata_most_recent s).filter
    (fun m => m.project == project)
  let raw ← filtered.mapM (Store.get_entry_for_metadata s)
  pure (latestG Entry.uuid raw)

/-- `Store::get_active_entries` (src/store/mod.rs:287-297). -/
def Store.get_active_entries (s : StoreState) (project : String) :
    Except StoreError (List Entry) :=
  (Store.get_entries s project).map (fun es => es.filter Entry.is_active)

/-- `Store::get_done_entries` (src/store/mod.rs:299-309). -/
def Store.get_done_entries (s : StoreState) (project : String) :
    Except StoreError (List Entry) :=
  (Store.get_entries s project).map (fun es => es.filter Entry.is_done)

/-- `Entries::entry_by_id` (src/entry.rs:134-144): 1-based position in the
active entries. With `id = 0` the bounds check `active_entries.len() < id`
passes and `id - 1` underflows on `usize` (a debug-build panic; in release the
wrapped `nth(usize::MAX)` yields `None` and the `.unwrap()` panics). -/
def Entries.entry_by_id (es : List Entry) (id : Nat) : Except StoreError Entry :=
  let active := es.filter Entry.is_active
  if active.length < id then .error .notFound
  else
    match id with
    | 0 => .error .panicked
    | n + 1 =>
      match active[n]? with
      | some e => .ok e
      | none => .error .panicked

/-- `Store::get_entry_by_id` (src/store/mod.rs:347-355). -/
def Store.get_entry_by_id (s : StoreState) (id : Nat) (project : String) :
    Except StoreError Entry := do
  let es ← Store.get_active_entries s project
  Entries.entry_by_id es id

/-- `Store::get_entry_by_uuid` (src/store/mod.rs:334-345): scan
`metadata_most_recent()` for the uuid and hydrate the match. -/
def Store.get_entry_by_uuid (s : StoreState) (u : Nat) : Except StoreError Entry :=
  match (Index.metadata_most_recent s).find? (fun m => m.uuid == u) with
  | some m => Store.get_entry_for_metadata s m
  | none => .error .notFound

/-- `Store::entry_done` (src/store/mod.rs:208-239): load the entry by display
id, ask the injected confirmation callback (`helper::confirm`, whose answer is
the boolean `ans`), and only then append a new metadata row with
`finished = Some(now)` and `last_change = now`. Returns the call's result
paired with the state after the call. -/
def Store.entry_done (s : StoreState) (id : Nat) (project : String)
    (ans : Bool) (now : Nat) : Except StoreError Unit × StoreState :=
  match Store.get_entry_by_id s id project with
  | .error e => (.error e, s)
  | .ok entry =>
    if !ans then (.error .declined, s)
    else
      let newMd : Metadata :=
        { entry.metadata with finished := some now, last_change := now }
      (.ok (), Index.metadata_add s newMd)

/-- `Store::update_entry` (src/store/mod.rs:403-419): always rewrite the blob;
append the metadata row only when `metadata_most_recent()` does not already
contain it. -/
def Store.update_entry (s : StoreState) (e : Entry) : StoreState :=
  let s1 := Store.write_entry_text s e
  if e.metadata ∈ Index.metadata_most_recent s1 then s1
  else Index.metadata_add s1 e.metadata

/-- `Store::cleanup_unreferenced_entry` (src/store/mod.rs:164-192): scan the
blob tree and delete every blob file whose uuid is not among the uuids of
`metadata_most_recent()`. -/
def Store.cleanup_unreferenced_entry (s : StoreState) : StoreState :=
  let keep := (Index.metadata_most_recent s).map Metadata.uuid
  { s with blobs := s.blobs.filter (fun b => decide (b.1 ∈ keep)) }

/-- `Store::run_cleanup` (src/store/mod.rs:390-401): compact the index, then
remove unreferenced blobs. -/
def Store.run_cleanup (s : StoreState) : StoreState :=
  Store.cleanup_unreferenced_entry (Index.compact s)

/-- Rust `ProjectCount` (src/entry.rs:275-281). -/
structure ProjectCount where
  project : String
  active_count : Nat
  done_count : Nat
  total_count : Nat
deriving DecidableEq, Repr

/-- Rust `ProjectCount::default()`: empty project name, zero counts. -/
def ProjectCount.default : ProjectCount :=
  { project := "", active_count := 0, done_count := 0, total_count := 0 }

/-- `ProjectCount::add_assign` (src/entry.rs:296-305): sum the counts; the
project name is taken from the right operand. -/
def ProjectCount.addAssign (a b : ProjectCount) : ProjectCount :=
  { project := b.project
    active_count := a.active_count + b.active_count
    done_count := a.done_count + b.done_count
    total_count := a.total_count + b.total_count }

/-- The `ProjectCount` summand built for one row in the
`Store::get_projects_count` loop (src/store/mod.rs:367-374). -/
def pcDelta (m : Metadata) : ProjectCount :=
  { project := m.project
    active_count := if m.is_active then 1 else 0
    done_count := if m.is_active then 0 else 1
    total_count := 1 }

/-- One iteration of the `Store::get_projects_count` loop
(src/store/mod.rs:362-375): `entry(project).or_insert(default)`, then
`*old_count += ProjectCount { project, active, done, 1 }`. -/
def Store.pcStep (acc : List (String × ProjectCount)) (m : Metadata) :
    List (String × ProjectCount) :=
  let old := (alLookup m.project acc).getD ProjectCount.default
  alInsert m.project (ProjectCount.addAssign old (pcDelta m)) acc

/-- `Store::get_projects_count` (src/store/mod.rs:357-380): one pass over
`metadata_most_recent()`, accumulating per-project counts in a map, then the
map's values. (`HashMap` iteration order is arbitrary; the properties proved
about the result are order-independent.) -/
def Store.get_projects_count (s : StoreState) : List ProjectCount :=
  ((Index.metadata_most_recent s).foldl Store.pcStep []).map Prod.snd

/-- One index file for the deserialization model: its path and its rows; a
`none` row is a row the CSV deserializer rejects. -/
structure IndexFile where
  path : String
  rows : List (Option Metadata)
deriving DecidableEq, Repr

/-- `Error::ReadIndexFile(path, csv_error)` (src/store/index.rs:214). -/
inductive IndexReadError
  | readIndexFile (path : String)
deriving DecidableEq, Repr

/-- `Index::read_metadata` (src/store/index.rs:175-181): deserialize every row
(`collect::<Result<Vec<Metadata>, csv::Error>>()`); any malformed row fails
the whole file. -/
def Index.read_metadata (rows : List (Option Metadata)) : Option (List Metadata) :=
  match rows with
  | [] => some []
  | r :: rest =>
    match r with
    | none => none
    | some m =>
      match Index.read_metadata rest with
      | none => none
      | some l => some (m :: l)

/-- `Index::read_metadata_file` (src/store/index.rs:164-172): read one file,
wrapping a deserialization failure in `ReadIndexFile` with the file's path. -/
def Index.read_metadata_file (f : IndexFile) : Except IndexReadError (List Metadata) :=
  match Index.read_metadata f.rows with
  | some rows => .ok rows
  | none => .error (.readIndexFile f.path)

/-- The `collect::<Result<Vec<Vec<_>>, Error>>()` of `Index::metadata`
(src/store/index.rs:152-155): read every file, aborting on the first failure. -/
def Index.readAllFiles (files : List IndexFile) :
    Except IndexReadError (List (List Metadata)) :=
  match files with
  | [] => .ok []
  | f :: rest =>
    match Index.read_metadata_file f with
    | .error e => .error e
    | .ok l =>
      match Index.readAllFiles rest with
      | .error e => .error e
      | .ok ls => .ok (l :: ls)

/-- `Index::metadata` at file granularity (src/store/index.rs:132-161): read
every shard file plus the compacted file, abort on the first file that fails
to deserialize, flatten and collect into a `BTreeSet`. -/
def Index.metadataOfFiles (files : List IndexFile) :
    Except IndexReadError (List Metadata) :=
  (Index.readAllFiles files).map (fun ls => toSetG ls.flatten)

/-- `Index::metadata_most_recent` built on the file-granularity read. -/
def Index.mostRecentOfFiles (files : List IndexFile) :
    Except IndexReadError (List Metadata) :=
  (Index.metadataOfFiles files).map
    (fun md => toSetG ((lwwFold Metadata.uuid md).map Prod.snd))

/-! ### Concrete fixtures used by witnesses and counterexamples -/

/-- A superseded version of entry 7 (older `last_change`, project "old"). -/
def exOld : Metadata :=
  { last_change := 1, due := none, started := 0, project := "old",
    finished := none, uuid := 7 }

/-- The latest version of entry 7 (newer `last_change`, project "new"). -/
def exNew : Metadata :=
  { last_change := 2, due := none, started := 0, project := "new",
    finished := none, uuid := 7 }

def w1State : StoreState := { shards := [exOld, exNew], compacted := [], blobs := [] }

def c3State : StoreState := { shards := [exOld, exNew], compacted := [], blobs := [] }

def c4State : StoreState := { shards := [], compacted := [], blobs := [] }

/-- An active entry of project "work", uuid 5. -/
def c4WMd : Metadata :=
  { last_change := 3, due := none, started := 1, project := "work",
    finished := none, uuid := 5 }

def c4WEntry : Entry := { metadata := c4WMd, text := "buy milk" }

def c4WState : StoreState :=
  { shards := [c4WMd], compacted := [], blobs := [(5, "buy milk")] }

def c5Md : Metadata :=
  { last_change := 4, due := none, started := 2, project := "work",
    finished := none, uuid := 9 }

def c5Entry : Entry := { metadata := c5Md, text := "water plants" }

def c5State : StoreState := { shards := [], compacted := [], blobs := [] }

def c6State : StoreState :=
  { shards := [exOld, exNew], compacted := [], blobs := [(7, "kept"), (8, "orphan")] }

def c7Good : IndexFile :=
  { path := "index/identifier/alice/2019-01-01.csv", rows := [some exNew] }

def c7Bad : IndexFile :=
  { path := "index/identifier/bob/2019-01-01.csv", rows := [none] }

def c8State : StoreState :=
  { shards := [exOld, exNew, c4WMd], compacted := [], blobs := [] }

def c9Md : Metadata :=
  { last_change := 6, due := none, started := 5, project := "work",
    finished := none, uuid := 11 }

def c9Entry : Entry := { metadata := c9Md, text := "new entry text" }

def c9State : StoreState := { shards := [], compacted := [], blobs := [] }

/-! ### Generic lemmas about the `BTreeSet` / `BTreeMap` models -/

section SetMapLemmas

variable {α : Type} [LinearOrder α] [DecidableEq α] {κ : Type} [DecidableEq κ]

theorem mem_toSetG {l : List α} {x : α} : x ∈ toSetG l ↔ x ∈ l := by
  rw [toSetG, (List.perm_insertionSort _ _).mem_iff, List.mem_dedup]

theorem sorted_toSetG (l : List α) : (toSetG l).Sorted (· ≤ ·) :=
  List.sorted_insertionSort _ _

theorem nodup_toSetG (l : List α) : (toSetG l).Nodup :=
  ((List.perm_insertionSort _ _).nodup_iff).2 (List.nodup_dedup l)

theorem eq_of_sorted_of_mem_iff {l₁ l₂ : List α} (s₁ : l₁.Sorted (· ≤ ·))
    (s₂ : l₂.Sorted (· ≤ ·)) (n₁ : l₁.Nodup) (n₂ : l₂.Nodup)
    (h : ∀ x, x ∈ l₁ ↔ x ∈ l₂) : l₁ = l₂ := by
  refine List.eq_of_perm_of_sorted ?_ s₁ s₂
  refine List.perm_of_nodup_nodup_toFinset_eq n₁ n₂ ?_
  ext x
  simp [List.mem_toFinset, h x]

end SetMapLemmas

section AssocLemmas

variable {α : Type} {κ : Type} [DecidableEq κ]

theorem alLookup_alInsert_self (k : κ) (v : α) (m : List (κ × α)) :
    alLookup k (alInsert k v m) = some v := by
  induction m with
  | nil => simp [alInsert, alLookup]
  | cons kv rest ih =>
    obtain ⟨k', v'⟩ := kv
    by_cases h : k = k' <;> simp [alInsert, alLookup, h, ih]

theorem alLookup_alInsert_ne {k k' : κ} (h : k ≠ k') (v : α) (m : List (κ × α)) :
    alLookup k (alInsert k' v m) = alLookup k m := by
  induction m with
  | nil => simp [alInsert, alLookup, h]
  | cons kv rest ih =>
    obtain ⟨k'', v''⟩ := kv
    by_cases h2 : k' = k''
    · subst h2
      simp [alInsert, alLookup, h]
    · by_cases h3 : k = k'' <;> simp [alInsert, alLookup, h2, h3, ih]

theorem mem_of_mem_alInsert {k : κ} {v : α} {m : List (κ × α)} {p : κ × α}
    (h : p ∈ alInsert k v m) : p = (k, v) ∨ p ∈ m := by
  induction m with
  | nil => simpa [alInsert] using h
  | cons kv rest ih =>
    obtain ⟨k', v'⟩ := kv
    by_cases h2 : k = k'
    · subst h2
      rcases List.mem_cons.1 (by simpa [alInsert] using h) with h3 | h3
      · exact Or.inl h3
      · exact Or.inr (List.mem_cons_of_mem _ h3)
    · rcases List.mem_cons.1 (by simpa [alInsert, h2] using h) with h3 | h3
      · exact Or.inr (by simp [h3])
      · rcases ih h3 with h4 | h4
        · exact Or.inl h4
        · exact Or.inr (List.mem_cons_of_mem _ h4)

theorem map_fst_alInsert (k : κ) (v : α) (m : List (κ × α)) :
    (alInsert k v m).map Prod.fst =
      if k ∈ m.map Prod.fst then m.map Prod.fst else m.map Prod.fst ++ [k] := by
  induction m with
  | nil => simp [alInsert]
  | cons kv rest ih =>
    obtain ⟨k', v'⟩ := kv
    by_cases h : k = k'
    · subst h
      simp [alInsert]
    · simp only [alInsert, if_neg h, List.map_cons, ih, List.mem_cons]
      by_cases h2 : k ∈ rest.map Prod.fst <;> simp [h, h2]

theorem alLookup_eq_some_mem {k : κ} {v : α} {m : List (κ × α)}
    (h : alLookup k m = some v) : (k, v) ∈ m := by
  induction m with
  | nil => simp [alLookup] at h
  | cons kv rest ih =>
    obtain ⟨k', v'⟩ := kv
    by_cases h2 : k = k'
    · subst h2
      have hv : v' = v := by simpa [alLookup] using h
      subst hv
      exact List.mem_cons_self _ _
    · simp only [alLookup, if_neg h2] at h
      exact List.mem_cons_of_mem _ (ih h)

theorem alLookup_of_mem {k : κ} {v : α} {m : List (κ × α)}
    (hn : (m.map Prod.fst).Nodup) (h : (k, v) ∈ m) : alLookup k m = some v := by
  induction m with
  | nil => simp at h
  | cons kv rest ih =>
    obtain ⟨k', v'⟩ := kv
    simp only [List.map_cons, List.nodup_cons] at hn
    rcases List.mem_cons.1 h with h2 | h2
    · obtain ⟨rfl, rfl⟩ := Prod.mk.inj h2
      simp [alLookup]
    · have hne : k ≠ k' := by
        rintro rfl
        exact hn.1 (List.mem_map.2 ⟨(k, v), h2, rfl⟩)
      simp [alLookup, hne, ih hn.2 h2]

end AssocLemmas

section LatestLemmas

variable {α : Type} [LinearOrder α] [DecidableEq α] (key : α → Nat)

theorem wfal_lwwStep {m : List (Nat × α)} (h : WFal key m) (x : α) :
    WFal key (lwwStep key m x) := by
  constructor
  · intro p hp
    rcases mem_of_mem_alInsert hp with h2 | h2
    · simp [h2]
    · exact h.1 p h2
  · rw [lwwStep, map_fst_alInsert]
    split
    · exact h.2
    · next h2 => simp [List.Nodup.append, h.2, h2, List.disjoint_singleton]

theorem wfal_lwwFold (l : List α) : WFal key (lwwFold key l) := by
  rw [lwwFold]
  have h : ∀ acc : List (Nat × α), WFal key acc → WFal key (l.foldl (lwwStep key) acc) := by
    induction l with
    | nil => intro acc h; simpa using h
    | cons x l ih =>
      intro acc h
      exact ih _ (wfal_lwwStep key h x)
  exact h [] ⟨by simp, by simp⟩

theorem mem_map_snd_iff_lookup {m : List (Nat × α)} (hwf : WFal key m) {v : α} :
    v ∈ m.map Prod.snd ↔ alLookup (key v) m = some v := by
  constructor
  · intro hv
    obtain ⟨p, hmem, hp⟩ := List.mem_map.1 hv
    have hk : key p.2 = p.1 := hwf.1 p hmem
    have : p = (key v, v) := by
      obtain ⟨k, v'⟩ := p
      simp only at hp
      subst hp
      simp only at hk
      simp [hk]
    rw [this] at hmem
    exact alLookup_of_mem hwf.2 hmem
  · intro h
    exact List.mem_map.2 ⟨(key v, v), alLookup_eq_some_mem h, rfl⟩

theorem alLookup_foldl (l : List α) (acc : List (Nat × α)) (k : Nat) :
    alLookup k (l.foldl (lwwStep key) acc) =
      match lastKey key k l with
      | some v => some v
      | none => alLookup k acc := by
  induction l generalizing acc with
  | nil => simp [lastKey]
  | cons x l ih =>
    rw [List.foldl_cons, ih]
    cases h : lastKey key k l with
    | some v => simp [lastKey, h]
    | none =>
      simp only [lastKey, h]
      by_cases hx : key x = k
      · subst hx
        simp [lwwStep, alLookup_alInsert_self]
      · have : k ≠ key x := fun hc => hx hc.symm
        simp [hx, lwwStep, alLookup_alInsert_ne this]

theorem lastKey_eq_none_iff (k : Nat) (l : List α) :
    lastKey key k l = none ↔ ∀ x ∈ l, key x ≠ k := by
  induction l with
  | nil => simp [lastKey]
  | cons x l ih =>
    cases h : lastKey key k l with
    | some v =>
      simp only [lastKey, h]
      have : ¬ ∀ y ∈ l, key y ≠ k := by
        rw [← ih]
        simp [h]
      simp only [List.mem_cons]
      constructor
      · intro hc
        exact absurd hc (by simp)
      · intro hc
        exact absurd (fun y hy => hc y (Or.inr hy)) this
    | none =>
      have hl : ∀ y ∈ l, key y ≠ k := ih.1 h
      simp only [lastKey, h, List.mem_cons]
      constructor
      · intro hc y hy
        rcases hy with rfl | hy
        · intro hk
          rw [if_pos hk] at hc
          exact Option.noConfusion hc
        · exact hl y hy
      · intro hc
        rw [if_neg (hc x (Or.inl rfl))]

theorem lastKey_mem {k : Nat} {l : List α} {v : α} (h : lastKey key k l = some v) :
    v ∈ l ∧ key v = k := by
  induction l with
  | nil => simp [lastKey] at h
  | cons x l ih =>
    cases h2 : lastKey key k l with
    | some w =>
      simp only [lastKey, h2, Option.some.injEq] at h
      subst h
      exact ⟨List.mem_cons_of_mem _ (ih h2).1, (ih h2).2⟩
    | none =>
      simp only [lastKey, h2] at h
      by_cases hx : key x = k
      · rw [if_pos hx] at h
        obtain rfl := Option.some.inj h
        exact ⟨List.mem_cons_self _ _, hx⟩
      · rw [if_neg hx] at h
        exact Option.noConfusion h

theorem lastKey_isMax {k : Nat} {l : List α} {v : α} (hs : l.Sorted (· ≤ ·))
    (h : lastKey key k l = some v) : ∀ x ∈ l, key x = k → x ≤ v := by
  induction l with
  | nil => simp
  | cons x l ih =>
    have hx : ∀ y ∈ l, x ≤ y := List.rel_of_sorted_cons hs
    have hsl : l.Sorted (· ≤ ·) := hs.of_cons
    intro y hy hky
    cases h2 : lastKey key k l with
    | some w =>
      simp only [lastKey, h2, Option.some.injEq] at h
      subst h
      rcases List.mem_cons.1 hy with rfl | hy2
      · exact hx _ (lastKey_mem key h2).1
      · exact ih hsl h2 y hy2 hky
    | none =>
      simp only [lastKey, h2] at h
      have hn : ∀ z ∈ l, key z ≠ k := (lastKey_eq_none_iff key k l).1 h2
      rcases List.mem_cons.1 hy with rfl | hy2
      · rw [if_pos hky] at h
        obtain rfl := Option.some.inj h
        exact le_refl _
      · exact absurd hky (hn y hy2)

theorem lastKey_eq_of_max {k : Nat} {l : List α} {v : α} (hs : l.Sorted (· ≤ ·))
    (hv : v ∈ l) (hk : key v = k) (hmax : ∀ x ∈ l, key x = k → x ≤ v) :
    lastKey key k l = some v := by
  cases h : lastKey key k l with
  | none =>
    exact absurd hk ((lastKey_eq_none_iff key k l).1 h v hv)
  | some w =>
    obtain ⟨hwl, hwk⟩ := lastKey_mem key h
    have h1 : v ≤ w := lastKey_isMax key hs h v hv hk
    have h2 : w ≤ v := hmax w hwl hwk
    rw [le_antisymm h2 h1]

theorem mem_latestG {l : List α} {x : α} :
    x ∈ latestG key l ↔ x ∈ l ∧ ∀ y ∈ l, key y = key x → y ≤ x := by
  rw [latestG, mem_toSetG, mem_map_snd_iff_lookup key (wfal_lwwFold key _), lwwFold,
    alLookup_foldl]
  constructor
  · intro h
    cases hlk : lastKey key (key x) (toSetG l) with
    | none =>
      rw [hlk] at h
      simp [alLookup] at h
    | some v =>
      rw [hlk] at h
      simp only [Option.some.injEq] at h
      subst h
      obtain ⟨hmem, _⟩ := lastKey_mem key hlk
      refine ⟨mem_toSetG.1 hmem, fun y hy hk => ?_⟩
      exact lastKey_isMax key (sorted_toSetG l) hlk y (mem_toSetG.2 hy) hk
  · rintro ⟨hx, hmax⟩
    rw [lastKey_eq_of_max key (sorted_toSetG l) (mem_toSetG.2 hx) rfl
      (fun y hy hk => hmax y (mem_toSetG.1 hy) hk)]

theorem latestG_sorted (l : List α) : (latestG key l).Sorted (· ≤ ·) :=
  sorted_toSetG _

theorem latestG_nodup (l : List α) : (latestG key l).Nodup :=
  nodup_toSetG _

theorem latestG_key_inj {l : List α} {x y : α} (hx : x ∈ latestG key l)
    (hy : y ∈ latestG key l) (h : key x = key y) : x = y := by
  obtain ⟨hxl, hxm⟩ := (mem_latestG key).1 hx
  obtain ⟨hyl, hym⟩ := (mem_latestG key).1 hy
  exact le_antisymm (hym x hxl h) (hxm y hyl h.symm)

theorem latestG_covers {l : List α} {x : α} (hx : x ∈ l) :
    ∃ y ∈ latestG key l, key y = key x := by
  cases hlk : lastKey key (key x) (toSetG l) with
  | none =>
    exact absurd rfl ((lastKey_eq_none_iff key _ _).1 hlk x (mem_toSetG.2 hx))
  | some v =>
    obtain ⟨hmem, hk⟩ := lastKey_mem key hlk
    refine ⟨v, (mem_latestG key).2 ⟨mem_toSetG.1 hmem, fun y hy hky => ?_⟩, hk⟩
    exact lastKey_isMax key (sorted_toSetG l) hlk y (mem_toSetG.2 hy) (hk ▸ hky)

theorem latestG_idem (l : List α) : latestG key (latestG key l) = latestG key l := by
  refine eq_of_sorted_of_mem_iff (latestG_sorted key _) (latestG_sorted key _)
    (latestG_nodup key _) (latestG_nodup key _) (fun x => ?_)
  rw [mem_latestG]
  constructor
  · rintro ⟨h, _⟩
    exact h
  · intro h
    refine ⟨h, fun y hy hk => ?_⟩
    rw [latestG_key_inj key hy h hk]

end LatestLemmas

/-! ### Lemmas about the store model -/

theorem metadata_most_recent_eq_latestG (s : StoreState) :
    Index.metadata_most_recent s = latestG Metadata.uuid s.allRecords := rfl

theorem allRecords_compact (s : StoreState) :
    (Index.compact s).allRecords = Index.metadata_most_recent s := by
  simp [Index.compact, StoreState.allRecords]

theorem most_recent_compact (s : StoreState) :
    Index.metadata_most_recent (Index.compact s) = Index.metadata_most_recent s := by
  rw [metadata_most_recent_eq_latestG, allRecords_compact,
    metadata_most_recent_eq_latestG, latestG_idem]

theorem mem_dedupAdj : ∀ (l : List String) (x : String), x ∈ dedupAdj l ↔ x ∈ l
  | [], x => by simp [dedupAdj]
  | [a], x => by simp [dedupAdj]
  | a :: b :: rest, x => by
    by_cases h : a = b
    · subst h
      rw [show dedupAdj (a :: a :: rest) = dedupAdj (a :: rest) from by
        simp [dedupAdj]]
      rw [mem_dedupAdj]
      simp only [List.mem_cons]
      tauto
    · rw [show dedupAdj (a :: b :: rest) = a :: dedupAdj (b :: rest) from by
        simp [dedupAdj, h]]
      rw [List.mem_cons, mem_dedupAdj (b :: rest) x]
      exact List.mem_cons.symm

theorem sorted_dedupAdj : ∀ {l : List String},
    l.Sorted (· ≤ ·) → (dedupAdj l).Sorted (· ≤ ·)
  | [], _ => by simp [dedupAdj]
  | [a], _ => by simp [dedupAdj]
  | a :: b :: rest, h => by
    have hbr : (b :: rest).Sorted (· ≤ ·) := h.of_cons
    by_cases hab : a = b
    · subst hab
      rw [show dedupAdj (a :: a :: rest) = dedupAdj (a :: rest) from by
        simp [dedupAdj]]
      exact sorted_dedupAdj hbr
    · rw [show dedupAdj (a :: b :: rest) = a :: dedupAdj (b :: rest) from by
        simp [dedupAdj, hab]]
      rw [List.sorted_cons]
      refine ⟨fun y hy => ?_, sorted_dedupAdj hbr⟩
      exact List.rel_of_sorted_cons h y ((mem_dedupAdj _ _).1 hy)

theorem nodup_dedupAdj : ∀ {l : List String}, l.Sorted (· ≤ ·) → (dedupAdj l).Nodup
  | [], _ => by simp [dedupAdj]
  | [a], _ => by simp [dedupAdj]
  | a :: b :: rest, h => by
    have hbr : (b :: rest).Sorted (· ≤ ·) := h.of_cons
    by_cases hab : a = b
    · subst hab
      rw [show dedupAdj (a :: a :: rest) = dedupAdj (a :: rest) from by
        simp [dedupAdj]]
      exact nodup_dedupAdj hbr
    · rw [show dedupAdj (a :: b :: rest) = a :: dedupAdj (b :: rest) from by
        simp [dedupAdj, hab]]
      rw [List.nodup_cons]
      refine ⟨fun hmem => ?_, nodup_dedupAdj hbr⟩
      have hmem2 : a ∈ b :: rest := (mem_dedupAdj _ _).1 hmem
      have hab2 : a ≤ b := List.rel_of_sorted_cons h b (List.mem_cons_self _ _)
      have hba : b ≤ a := by
        rcases List.mem_cons.1 hmem2 with rfl | hmem3
        · exact le_refl _
        · exact List.rel_of_sorted_cons hbr a hmem3
      exact hab (le_antisymm hab2 hba)

/-! ### Claims -/

/-- C1: for every store state, `Index::metadata_most_recent` returns, per
identity (uuid), exactly one row, namely the maximum of all raw records
sharing that uuid under the total order on `Metadata` (last-write-wins):
every returned row is a raw record that dominates its uuid group, every raw
record's uuid is represented, and no two returned rows share a uuid. -/
theorem claim1_most_recent_is_lww_max (s : StoreState) :
    (∀ m ∈ Index.metadata_most_recent s,
        m ∈ s.allRecords ∧ ∀ m' ∈ s.allRecords, m'.uuid = m.uuid → m' ≤ m) ∧
    (∀ m ∈ s.allRecords, ∃ mx ∈ Index.metadata_most_recent s, mx.uuid = m.uuid) ∧
    (∀ m₁ ∈ Index.metadata_most_recent s, ∀ m₂ ∈ Index.metadata_most_recent s,
        m₁.uuid = m₂.uuid → m₁ = m₂) := by
  simp only [metadata_most_recent_eq_latestG]
  exact ⟨fun m hm => (mem_latestG Metadata.uuid).1 hm,
    fun m hm => latestG_covers Metadata.uuid hm,
    fun m₁ h₁ m₂ h₂ h => latestG_key_inj Metadata.uuid h₁ h₂ h⟩

/-- C1 witness: on a store whose shards hold two versions of uuid 7,
`metadata_most_recent` keeps `exNew`, and the theorem yields `exOld ≤ exNew`. -/
theorem claim1_witness :
    exNew ∈ Index.metadata_most_recent w1State ∧ exOld ≤ exNew := by
  have hmem : exNew ∈ Index.metadata_most_recent w1State := by decide
  have h := (claim1_most_recent_is_lww_max w1State).1 exNew hmem
  exact ⟨hmem, h.2 exOld (by decide) (by decide)⟩

/-- C2: `Index::compact` is observationally a no-op on the latest-state query;
it stores exactly that set as the compacted file and clears the shard tree. -/
theorem claim2_compact_noop (s : StoreState) :
    Index.metadata_most_recent (Index.compact s) = Index.metadata_most_recent s ∧
    (Index.compact s).compacted = Index.metadata_most_recent s ∧
    (Index.compact s).shards = [] :=
  ⟨most_recent_compact s, rfl, rfl⟩

/-- C3 counterexample: in `c3State` the project "old" occurs only in a
superseded row (uuid 7 also has a newer row with project "new"), yet
`Index::projects` still returns "old" — the code derives project names from
all raw records, not from the latest rows as the claim states. -/
theorem claim3_counterexample :
    "old" ∈ Index.projects c3State ∧
    ∀ m ∈ Index.metadata_most_recent c3State, m.project ≠ "old" := by
  constructor
  · rw [Index.projects, mem_dedupAdj, (List.perm_insertionSort _ _).mem_iff,
      List.mem_map]
    refine ⟨exOld, ?_, by decide⟩
    exact (mem_toSetG.2 (by decide) : exOld ∈ toSetG c3State.allRecords)
  · decide

/-- C3 (amended): `Index::projects` returns a sorted, deduplicated list of the
project names referenced by ALL raw records (shards plus compacted file),
superseded rows included — not only those referenced by the latest rows. -/
theorem claim3_amended_projects (s : StoreState) :
    (Index.projects s).Sorted (· ≤ ·) ∧ (Index.projects s).Nodup ∧
    (∀ p, p ∈ Index.projects s ↔ ∃ m ∈ s.allRecords, m.project = p) := by
  have hsorted :
      (((Index.metadata s).map Metadata.project).insertionSort (· ≤ ·)).Sorted (· ≤ ·) :=
    List.sorted_insertionSort _ _
  refine ⟨sorted_dedupAdj hsorted, nodup_dedupAdj hsorted, fun p => ?_⟩
  rw [Index.projects, mem_dedupAdj, (List.perm_insertionSort _ _).mem_iff, List.mem_map]
  constructor
  · rintro ⟨m, hm, rfl⟩
    have hm2 : m ∈ toSetG s.allRecords := hm
    exact ⟨m, mem_toSetG.1 hm2, rfl⟩
  · rintro ⟨m, hm, rfl⟩
    have hm2 : m ∈ toSetG s.allRecords := mem_toSetG.2 hm
    exact ⟨m, hm2, rfl⟩

/-- C3 witness: the amended theorem applied to `c3State` puts "old" (a project
occurring only in a superseded raw record) in the output. -/
theorem claim3_witness : "old" ∈ Index.projects c3State :=
  ((claim3_amended_projects c3State).2.2 "old").2 ⟨exOld, by decide, by decide⟩

theorem get_active_entries_filter {s : StoreState} {p : String} {acts : List Entry}
    (h : Store.get_active_entries s p = .ok acts) :
    acts.filter Entry.is_active = acts := by
  cases hge : Store.get_entries s p with
  | error e =>
    rw [Store.get_active_entries, hge] at h
    exact absurd h (by simp [Except.map])
  | ok es =>
    rw [Store.get_active_entries, hge] at h
    simp only [Except.map, Except.ok.injEq] at h
    subst h
    rw [List.filter_filter]
    simp

/-- C4 counterexample: with `n = 0` (here on the empty store) the code panics
on the `id - 1` usize underflow instead of returning the NotFound error the
claim states for `n = 0`. -/
theorem claim4_counterexample :
    Store.get_entry_by_id c4State 0 "work" = .error .panicked ∧
    StoreError.panicked ≠ StoreError.notFound := ⟨rfl, by decide⟩

/-- C4 (amended): when `get_active_entries(p)` succeeds with list `acts`,
`get_entry_by_id(n, p)` fails with NotFound when `n` exceeds the number of
active entries, panics (usize underflow) when `n` is zero — rather than
returning NotFound as the claim states — and otherwise returns the entry at
1-based position `n` of `acts`. -/
theorem claim4_amended_entry_by_id (s : StoreState) (p : String) (n : Nat)
    (acts : List Entry) (h : Store.get_active_entries s p = .ok acts) :
    (n = 0 → Store.get_entry_by_id s n p = .error .panicked) ∧
    (acts.length < n → Store.get_entry_by_id s n p = .error .notFound) ∧
    (1 ≤ n → n ≤ acts.length →
      ∃ e, acts[n - 1]? = some e ∧ Store.get_entry_by_id s n p = .ok e) := by
  have hb : Store.get_entry_by_id s n p = Entries.entry_by_id acts n := by
    simp only [Store.get_entry_by_id, h]
    rfl
  have hf : acts.filter Entry.is_active = acts := get_active_entries_filter h
  rw [hb]
  refine ⟨?_, ?_, ?_⟩
  · rintro rfl
    simp [Entries.entry_by_id, hf]
  · intro hlt
    simp only [Entries.entry_by_id, hf]
    rw [if_pos hlt]
  · intro h1 h2
    obtain ⟨m, rfl⟩ : ∃ m, n = m + 1 := ⟨n - 1, by omega⟩
    have hm : m < acts.length := by omega
    refine ⟨acts[m], by simp, ?_⟩
    simp only [Entries.entry_by_id, hf]
    rw [if_neg (by omega)]
    simp [List.getElem?_eq_getElem hm]

/-- C4 witness: a store with one active "work" entry; the amended theorem
returns that entry at 1-based position 1. -/
theorem claim4_witness :
    Store.get_active_entries c4WState "work" = .ok [c4WEntry] ∧
    Store.get_entry_by_id c4WState 1 "work" = .ok c4WEntry := by
  have hok : Store.get_active_entries c4WState "work" = .ok [c4WEntry] := rfl
  obtain ⟨e, he, hr⟩ :=
    (claim4_amended_entry_by_id c4WState "work" 1 [c4WEntry] hok).2.2
      (by decide) (by decide)
  have heq : e = c4WEntry := by simpa using he.symm
  exact ⟨hok, heq ▸ hr⟩

theorem most_recent_write_entry_text (s : StoreState) (e : Entry) :
    Index.metadata_most_recent (Store.write_entry_text s e) =
      Index.metadata_most_recent s := rfl

theorem find_latest_eq_some_iff_mem {s : StoreState} {md : Metadata} :
    (Index.metadata_most_recent s).find? (fun m => m.uuid == md.uuid) = some md ↔
      md ∈ Index.metadata_most_recent s := by
  constructor
  · intro h
    exact List.mem_of_find?_eq_some h
  · intro h
    cases hf : (Index.metadata_most_recent s).find? (fun m => m.uuid == md.uuid) with
    | none =>
      have := List.find?_eq_none.1 hf md h
      simp at this
    | some m₀ =>
      have hkey : m₀.uuid = md.uuid := by simpa using List.find?_some hf
      have hm₀ : m₀ ∈ Index.metadata_most_recent s := List.mem_of_find?_eq_some hf
      have heq : m₀ = md := by
        rw [metadata_most_recent_eq_latestG] at h hm₀
        exact latestG_key_inj Metadata.uuid hm₀ h hkey
      rw [heq]

/-- C5: `update_entry` always rewrites the identity's blob (leaving the
compacted file alone), and appends the metadata row to the shards if and only
if it differs from the currently-known latest row for that identity
(re-submitting the exact latest row appends nothing). -/
theorem claim5_update_entry (s : StoreState) (e : Entry) :
    alLookup e.metadata.uuid (Store.update_entry s e).blobs = some e.text ∧
    (Store.update_entry s e).compacted = s.compacted ∧
    ((Index.metadata_most_recent s).find? (fun m => m.uuid == e.metadata.uuid) =
        some e.metadata →
      (Store.update_entry s e).shards = s.shards) ∧
    ((Index.metadata_most_recent s).find? (fun m => m.uuid == e.metadata.uuid) ≠
        some e.metadata →
      (Store.update_entry s e).shards = s.shards ++ [e.metadata]) := by
  by_cases hmem : e.metadata ∈ Index.metadata_most_recent (Store.write_entry_text s e)
  · have hupd : Store.update_entry s e = Store.write_entry_text s e := by
      simp only [Store.update_entry, if_pos hmem]
    rw [hupd]
    refine ⟨alLookup_alInsert_self _ _ _, rfl, fun _ => rfl, fun hne => ?_⟩
    rw [most_recent_write_entry_text] at hmem
    exact absurd (find_latest_eq_some_iff_mem.2 hmem) hne
  · have hupd : Store.update_entry s e =
        Index.metadata_add (Store.write_entry_text s e) e.metadata := by
      simp only [Store.update_entry, if_neg hmem]
    rw [hupd]
    refine ⟨alLookup_alInsert_self _ _ _, rfl, fun hfind => ?_, fun _ => rfl⟩
    rw [most_recent_write_entry_text] at hmem
    exact absurd (find_latest_eq_some_iff_mem.1 hfind) hmem

/-- C5 witness: on the empty store there is no latest row for uuid 9, so
`update_entry` appends the row, and the blob holds the new text. -/
theorem claim5_witness :
    (Store.update_entry c5State c5Entry).shards = [c5Md] ∧
    alLookup 9 (Store.update_entry c5State c5Entry).blobs = some "water plants" := by
  have h := claim5_update_entry c5State c5Entry
  have happend := h.2.2.2 (by decide)
  exact ⟨happend, h.1⟩

theorem run_cleanup_blobs (s : StoreState) :
    (Store.run_cleanup s).blobs =
      s.blobs.filter (fun b =>
        decide (b.1 ∈ (Index.metadata_most_recent s).map Metadata.uuid)) := by
  rw [Store.run_cleanup]
  simp only [Store.cleanup_unreferenced_entry, most_recent_compact]
  rfl

theorem most_recent_run_cleanup (s : StoreState) :
    Index.metadata_most_recent (Store.run_cleanup s) =
      Index.metadata_most_recent s := by
  rw [Store.run_cleanup]
  have h : Index.metadata_most_recent (Store.cleanup_unreferenced_entry (Index.compact s)) =
      Index.metadata_most_recent (Index.compact s) := rfl
  rw [h, most_recent_compact]

/-- C6: `run_cleanup` keeps exactly the blobs whose identity occurs among the
latest rows (so it deletes exactly the unreferenced ones), never adds a blob,
and a second run in a row deletes nothing. -/
theorem claim6_run_cleanup (s : StoreState) :
    (∀ b ∈ s.blobs, (b ∈ (Store.run_cleanup s).blobs ↔
        b.1 ∈ (Index.metadata_most_recent s).map Metadata.uuid)) ∧
    (∀ b ∈ (Store.run_cleanup s).blobs, b ∈ s.blobs) ∧
    (Store.run_cleanup (Store.run_cleanup s)).blobs = (Store.run_cleanup s).blobs := by
  refine ⟨fun b hb => ?_, fun b hb => ?_, ?_⟩
  · rw [run_cleanup_blobs, List.mem_filter]
    simp [hb]
  · rw [run_cleanup_blobs] at hb
    exact List.mem_of_mem_filter hb
  · rw [run_cleanup_blobs (Store.run_cleanup s), run_cleanup_blobs s,
      most_recent_run_cleanup, List.filter_filter]
    simp [Bool.and_self]

/-- C6 witness: in `c6State` the latest rows reference uuid 7 only; cleanup
keeps blob 7 and removes the orphan blob 8. -/
theorem claim6_witness :
    (7, "kept") ∈ (Store.run_cleanup c6State).blobs ∧
    (8, "orphan") ∉ (Store.run_cleanup c6State).blobs := by
  have h := (claim6_run_cleanup c6State).1
  constructor
  · exact (h (7, "kept") (by decide)).2 (by decide)
  · intro hmem
    have h8 := (h (8, "orphan") (by decide)).1 hmem
    revert h8
    decide

theorem read_metadata_of_malformed {rows : List (Option Metadata)} (h : none ∈ rows) :
    Index.read_metadata rows = none := by
  induction rows with
  | nil => simp at h
  | cons r rest ih =>
    cases r with
    | none => simp [Index.read_metadata]
    | some m =>
      have h2 : none ∈ rest := by
        rcases List.mem_cons.1 h with h3 | h3
        · exact absurd h3 (by simp)
        · exact h3
      simp [Index.read_metadata, ih h2]

theorem read_metadata_of_wellformed {rows : List (Option Metadata)} (h : none ∉ rows) :
    ∃ l, Index.read_metadata rows = some l := by
  induction rows with
  | nil => exact ⟨[], rfl⟩
  | cons r rest ih =>
    cases r with
    | none => exact absurd (List.mem_cons_self _ _) h
    | some m =>
      have h2 : none ∉ rest := fun hc => h (List.mem_cons_of_mem _ hc)
      obtain ⟨l, hl⟩ := ih h2
      exact ⟨m :: l, by simp [Index.read_metadata, hl]⟩

theorem read_metadata_file_error {f : IndexFile} (h : none ∈ f.rows) :
    Index.read_metadata_file f = .error (.readIndexFile f.path) := by
  rw [Index.read_metadata_file, read_metadata_of_malformed h]

theorem read_metadata_file_ok {f : IndexFile} (h : none ∉ f.rows) :
    ∃ l, Index.read_metadata_file f = .ok l := by
  obtain ⟨l, hl⟩ := read_metadata_of_wellformed h
  exact ⟨l, by rw [Index.read_metadata_file, hl]⟩

theorem readAllFiles_cons_error {f : IndexFile} {rest : List IndexFile}
    {e : IndexReadError} (h : Index.read_metadata_file f = .error e) :
    Index.readAllFiles (f :: rest) = .error e := by
  simp [Index.readAllFiles, h]

theorem readAllFiles_cons_ok {f : IndexFile} {rest : List IndexFile}
    {l : List Metadata} (h : Index.read_metadata_file f = .ok l) :
    Index.readAllFiles (f :: rest) =
      match Index.readAllFiles rest with
      | .error e => .error e
      | .ok ls => .ok (l :: ls) := by
  simp [Index.readAllFiles, h]

/-- C7: one malformed row in any shard file (or in the compacted file) makes
the merged read — and the latest-state query built on it — fail with a
deserialization error naming an offending file; no partial result is
produced (the result type carries either an error or a full result). -/
theorem claim7_malformed_aborts (files : List IndexFile)
    (h : ∃ f ∈ files, none ∈ f.rows) :
    ∃ f ∈ files, none ∈ f.rows ∧
      Index.metadataOfFiles files = .error (.readIndexFile f.path) ∧
      Index.mostRecentOfFiles files = .error (.readIndexFile f.path) := by
  induction files with
  | nil => simp at h
  | cons f rest ih =>
    by_cases hf : none ∈ f.rows
    · have hcons : Index.readAllFiles (f :: rest) = .error (.readIndexFile f.path) :=
        readAllFiles_cons_error (read_metadata_file_error hf)
      refine ⟨f, List.mem_cons_self _ _, hf, ?_, ?_⟩
      · rw [Index.metadataOfFiles, hcons]
        rfl
      · rw [Index.mostRecentOfFiles, Index.metadataOfFiles, hcons]
        rfl
    · obtain ⟨g, hg, hgrows⟩ := h
      have hgrest : g ∈ rest := by
        rcases List.mem_cons.1 hg with rfl | h2
        · exact absurd hgrows hf
        · exact h2
      obtain ⟨g', hg', hg'rows, hmd, _⟩ := ih ⟨g, hgrest, hgrows⟩
      obtain ⟨l, hl⟩ := read_metadata_file_ok hf
      have hrest : Index.readAllFiles rest = .error (.readIndexFile g'.path) := by
        rw [Index.metadataOfFiles] at hmd
        cases hmm : Index.readAllFiles rest with
        | error err =>
          rw [hmm] at hmd
          simp only [Except.map, Except.error.injEq] at hmd
          rw [hmd]
        | ok ls =>
          rw [hmm] at hmd
          simp [Except.map] at hmd
      have hcons : Index.readAllFiles (f :: rest) = .error (.readIndexFile g'.path) := by
        rw [readAllFiles_cons_ok hl, hrest]
      refine ⟨g', List.mem_cons_of_mem _ hg', hg'rows, ?_, ?_⟩
      · rw [Index.metadataOfFiles, hcons]
        rfl
      · rw [Index.mostRecentOfFiles, Index.metadataOfFiles, hcons]
        rfl

/-- C7 witness: a well-formed shard plus a shard with one malformed row; the
merged read and the latest-state query fail naming the offending file. -/
theorem claim7_witness :
    ∃ f ∈ [c7Good, c7Bad], none ∈ f.rows ∧
      Index.metadataOfFiles [c7Good, c7Bad] = .error (.readIndexFile f.path) ∧
      Index.mostRecentOfFiles [c7Good, c7Bad] = .error (.readIndexFile f.path) :=
  claim7_malformed_aborts [c7Good, c7Bad] ⟨c7Bad, by decide, by decide⟩

theorem sum_map_one {α : Type} (l : List α) :
    (l.map (fun _ => (1 : Nat))).sum = l.length := by
  induction l with
  | nil => rfl
  | cons x l ih =>
    simp [ih]
    omega

theorem sum_map_ite_count {α : Type} (p : α → Bool) (l : List α) :
    (l.map (fun x => if p x then (1 : Nat) else 0)).sum = (l.filter p).length := by
  induction l with
  | nil => rfl
  | cons x l ih =>
    by_cases h : p x <;> simp [h, ih, List.filter_cons] <;> omega

theorem sum_map_snd_alInsert_addAssign (f : ProjectCount → Nat)
    (hf : ∀ a b, f (ProjectCount.addAssign a b) = f a + f b)
    (hd : f ProjectCount.default = 0)
    (k : String) (delta : ProjectCount) (m : List (String × ProjectCount)) :
    (((alInsert k (ProjectCount.addAssign ((alLookup k m).getD ProjectCount.default)
        delta) m).map Prod.snd).map f).sum =
      ((m.map Prod.snd).map f).sum + f delta := by
  induction m with
  | nil => simp [alInsert, alLookup, hf, hd]
  | cons p rest ih =>
    obtain ⟨k', v⟩ := p
    by_cases h : k = k'
    · subst h
      rw [show alLookup k ((k, v) :: rest) = some v from by simp [alLookup]]
      rw [show ∀ w : ProjectCount, alInsert k w ((k, v) :: rest) = (k, w) :: rest from
        fun w => by simp [alInsert]]
      simp only [Option.getD_some, List.map_cons, List.sum_cons, hf]
      omega
    · rw [show alLookup k ((k', v) :: rest) = alLookup k rest from by
        simp [alLookup, h]]
      rw [show ∀ w : ProjectCount,
          alInsert k w ((k', v) :: rest) = (k', v) :: alInsert k w rest from
        fun w => by simp [alInsert, h]]
      simp only [List.map_cons, List.sum_cons]
      rw [ih]
      omega

theorem pc_fold_sum (f : ProjectCount → Nat)
    (hf : ∀ a b, f (ProjectCount.addAssign a b) = f a + f b)
    (hd : f ProjectCount.default = 0)
    (md : List Metadata) (acc : List (String × ProjectCount)) :
    (((md.foldl Store.pcStep acc).map Prod.snd).map f).sum =
      ((acc.map Prod.snd).map f).sum + (md.map (fun m => f (pcDelta m))).sum := by
  induction md generalizing acc with
  | nil => simp
  | cons m md ih =>
    rw [List.foldl_cons, ih]
    rw [show Store.pcStep acc m =
      alInsert m.project (ProjectCount.addAssign
        ((alLookup m.project acc).getD ProjectCount.default) (pcDelta m)) acc from rfl]
    rw [sum_map_snd_alInsert_addAssign f hf hd]
    simp
    omega

theorem pc_fold_project (md : List Metadata) (acc : List (String × ProjectCount)) :
    ∀ q ∈ (md.foldl Store.pcStep acc).map Prod.snd,
      q ∈ acc.map Prod.snd ∨ ∃ m ∈ md, m.project = q.project := by
  induction md generalizing acc with
  | nil => intro q hq; exact Or.inl hq
  | cons m md ih =>
    intro q hq
    rw [List.foldl_cons] at hq
    rcases ih _ q hq with hacc | ⟨m', hm', hp⟩
    · obtain ⟨p, hpmem, rfl⟩ := List.mem_map.1 hacc
      simp only [Store.pcStep] at hpmem
      rcases mem_of_mem_alInsert hpmem with h2 | h2
      · subst h2
        exact Or.inr ⟨m, List.mem_cons_self _ _, rfl⟩
      · exact Or.inl (List.mem_map.2 ⟨p, h2, rfl⟩)
    · exact Or.inr ⟨m', List.mem_cons_of_mem _ hm', hp⟩

/-- C8: the total counts of `get_projects_count` sum to the number of latest
rows; the active/done counts sum to the number of latest rows with
`finished = None` / `finished = Some`; and every reported project name is the
project of a latest row. -/
theorem claim8_projects_count (s : StoreState) :
    ((Store.get_projects_count s).map ProjectCount.total_count).sum =
      (Index.metadata_most_recent s).length ∧
    ((Store.get_projects_count s).map ProjectCount.active_count).sum =
      ((Index.metadata_most_recent s).filter Metadata.is_active).length ∧
    ((Store.get_projects_count s).map ProjectCount.done_count).sum =
      ((Index.metadata_most_recent s).filter (fun m => !m.is_active)).length ∧
    (∀ pc ∈ Store.get_projects_count s, ∃ m ∈ Index.metadata_most_recent s,
      m.project = pc.project) := by
  refine ⟨?_, ?_, ?_, ?_⟩
  · rw [Store.get_projects_count,
      pc_fold_sum ProjectCount.total_count (fun a b => rfl) rfl]
    have : (Index.metadata_most_recent s).map
        (fun m => ProjectCount.total_count (pcDelta m)) =
        (Index.metadata_most_recent s).map (fun _ => (1 : Nat)) := rfl
    rw [this, sum_map_one]
    simp
  · rw [Store.get_projects_count,
      pc_fold_sum ProjectCount.active_count (fun a b => rfl) rfl]
    have : (Index.metadata_most_recent s).map
        (fun m => ProjectCount.active_count (pcDelta m)) =
        (Index.metadata_most_recent s).map
          (fun m => if m.is_active then (1 : Nat) else 0) := rfl
    rw [this, sum_map_ite_count]
    simp
  · rw [Store.get_projects_count,
      pc_fold_sum ProjectCount.done_count (fun a b => rfl) rfl]
    have h1 : (Index.metadata_most_recent s).map
        (fun m => ProjectCount.done_count (pcDelta m)) =
        (Index.metadata_most_recent s).map
          (fun m => if !m.is_active then (1 : Nat) else 0) := by
      refine List.map_congr_left (fun m _ => ?_)
      cases h : m.is_active <;> simp [pcDelta, h]
    rw [h1, sum_map_ite_count]
    simp
  · intro pc hpc
    rw [Store.get_projects_count] at hpc
    rcases pc_fold_project (Index.metadata_most_recent s) [] pc hpc with h | ⟨m, hm, hp⟩
    · simp at h
    · exact ⟨m, hm, hp⟩

/-- C8 witness: a store whose latest rows are `exNew` and `c4WMd` (both
active); totals sum to 2, actives to 2, dones to 0. -/
theorem claim8_witness :
    ((Store.get_projects_count c8State).map ProjectCount.total_count).sum = 2 ∧
    ((Store.get_projects_count c8State).map ProjectCount.done_count).sum = 0 := by
  have h := claim8_projects_count c8State
  constructor
  · rw [h.1]
    decide
  · rw [h.2.2.1]
    decide

theorem mem_allRecords_add_entry {s : StoreState} {e : Entry} {x : Metadata} :
    x ∈ (Store.add_entry s e).allRecords ↔ x ∈ s.allRecords ∨ x = e.metadata := by
  simp only [Store.add_entry, Index.metadata_add, Store.write_entry_text,
    StoreState.allRecords, List.mem_append, List.mem_cons, List.mem_singleton]
  tauto

/-- C9: if `e.metadata` dominates every stored record sharing its identity
(for instance a fresh identity not present in the index), then `add_entry(e)`
followed by `get_entry_by_uuid(e.identity)` returns exactly the added text and
metadata. -/
theorem claim9_add_then_get (s : StoreState) (e : Entry)
    (hmax : ∀ m ∈ s.allRecords, m.uuid = e.metadata.uuid → m ≤ e.metadata) :
    Store.get_entry_by_uuid (Store.add_entry s e) e.metadata.uuid = .ok e := by
  have hmem : e.metadata ∈ Index.metadata_most_recent (Store.add_entry s e) := by
    rw [metadata_most_recent_eq_latestG]
    refine (mem_latestG Metadata.uuid).2 ⟨?_, ?_⟩
    · exact mem_allRecords_add_entry.2 (Or.inr rfl)
    · intro y hy hk
      rcases mem_allRecords_add_entry.1 hy with h2 | h2
      · exact hmax y h2 hk
      · rw [h2]
  have hfind : (Index.metadata_most_recent (Store.add_entry s e)).find?
      (fun m => m.uuid == e.metadata.uuid) = some e.metadata :=
    find_latest_eq_some_iff_mem.2 hmem
  unfold Store.get_entry_by_uuid
  rw [hfind]
  show Store.get_entry_for_metadata (Store.add_entry s e) e.metadata = .ok e
  have hblob : alLookup e.metadata.uuid (Store.add_entry s e).blobs = some e.text :=
    alLookup_alInsert_self _ _ _
  unfold Store.get_entry_for_metadata
  rw [hblob]

/-- C9 witness: adding a fresh entry to the empty store and reading it back by
uuid returns exactly the added entry. -/
theorem claim9_witness :
    Store.get_entry_by_uuid (Store.add_entry c9State c9Entry)
      c9Entry.metadata.uuid = .ok c9Entry :=
  claim9_add_then_get c9State c9Entry (by decide)

/-- C10: when the injected confirmation callback declines (`ans = false`),
`entry_done` returns an error and leaves the store unchanged: no metadata row
is appended and no blob written, so the latest rows, the active entries and
the done entries all read the same afterwards. -/
theorem claim10_entry_done_declined (s : StoreState) (id : Nat) (p : String)
    (now : Nat) :
    (Store.entry_done s id p false now).2 = s ∧
    (∃ err, (Store.entry_done s id p false now).1 = .error err) ∧
    Index.metadata_most_recent (Store.entry_done s id p false now).2 =
      Index.metadata_most_recent s ∧
    (∀ q, Store.get_active_entries (Store.entry_done s id p false now).2 q =
      Store.get_active_entries s q) ∧
    (∀ q, Store.get_done_entries (Store.entry_done s id p false now).2 q =
      Store.get_done_entries s q) := by
  have hmain : (Store.entry_done s id p false now).2 = s ∧
      ∃ err, (Store.entry_done s id p false now).1 = .error err := by
    unfold Store.entry_done
    cases h : Store.get_entry_by_id s id p with
    | error err =>
      exact ⟨rfl, err, rfl⟩
    | ok entry =>
      exact ⟨rfl, .declined, rfl⟩
  obtain ⟨h1, h2⟩ := hmain
  exact ⟨h1, h2, by rw [h1], fun q => by rw [h1], fun q => by rw [h1]⟩

end Todust
